import Mathlib

/-!
Verification of the `BiMap` bidirectional map (src/src/lib.rs).

The two `HashMap`s of the Rust implementation are modelled as key-unique
association lists: `HashMap::get` is `findKey`, the in-place effect of
`HashMap::remove` is `eraseKey` (together with `findKey` for its return
value), and `HashMap::insert` is `insertKey` (which overwrites an existing
entry for the key).  `HashMap::len` is the list length, which agrees with
the key count on states whose keys are distinct; the development proves
that all reachable states have distinct keys in both indexes.

`BiMap.insert` can panic (the `unwrap` in the right-collision branch), so
it returns an `Option`: `none` models the panic, `some (s, e)` models a
normal return with new state `s` and evicted pair `e`.
-/

namespace BiMapModel

section AssocDefs

variable {α β : Type} [DecidableEq α]

/-- First-match association-list lookup: models `HashMap::get` (and the
value returned by `HashMap::remove`). -/
def findKey : List (α × β) → α → Option β
  | [], _ => none
  | (k, v) :: rest, a => if k = a then some v else findKey rest a

/-- Removal of the first entry with the given key: models the effect of
`HashMap::remove` on the map (a no-op when the key is absent). -/
def eraseKey : List (α × β) → α → List (α × β)
  | [], _ => []
  | (k, v) :: rest, a => if k = a then rest else (k, v) :: eraseKey rest a

/-- Key-overwriting insertion: models the effect of `HashMap::insert`. -/
def insertKey (m : List (α × β)) (a : α) (b : β) : List (α × β) :=
  (a, b) :: eraseKey m a

/-- The keys of an association list are pairwise distinct.  This holds for
every list that models a `HashMap` state. -/
def NodupKeys (m : List (α × β)) : Prop :=
  (m.map Prod.fst).Nodup

end AssocDefs

/-- The Rust struct `BiMap<L, R>` with its two indexes. -/
structure BiMap (L R : Type) where
  left_to_right : List (L × R)
  right_to_left : List (R × L)
deriving DecidableEq

namespace BiMap

variable {L R : Type} [DecidableEq L] [DecidableEq R]

/-- `BiMap::new()`: both indexes empty.  `with_capacity` produces the same
abstract state. -/
def new : BiMap L R := ⟨[], []⟩

/-- The state built by the mutations of the right-collision branch of
`BiMap::insert` (lines 29-35 of lib.rs): remove `old_left` from the
forward index, remove `right` from the reverse index, then install
`(left, right)` in both. -/
def rightCollisionResult (s : BiMap L R) (left : L) (right : R) (old_left : L) :
    BiMap L R :=
  { left_to_right := insertKey (eraseKey s.left_to_right old_left) left right
    right_to_left := insertKey (eraseKey s.right_to_left right) right left }

/-- The state built by the mutations of the left-collision branch of
`BiMap::insert` (lines 43-46 of lib.rs): remove `old_right` from the
reverse index, overwrite the forward entry for `left`, install the reverse
entry for `right`. -/
def leftCollisionResult (s : BiMap L R) (left : L) (right : R) (old_right : R) :
    BiMap L R :=
  { left_to_right := insertKey s.left_to_right left right
    right_to_left := insertKey (eraseKey s.right_to_left old_right) right left }

/-- The state built by the no-collision branch of `BiMap::insert`
(lines 50-51 of lib.rs): insert `(left, right)` into both indexes. -/
def freshInsertResult (s : BiMap L R) (left : L) (right : R) : BiMap L R :=
  { left_to_right := insertKey s.left_to_right left right
    right_to_left := insertKey s.right_to_left right left }

/-- The part of `BiMap::insert` that runs when the right-collision branch
did not return (lines 39-52 of lib.rs): the left-collision check and the
fresh insert.  This part never panics. -/
def insertLeftPhase (s : BiMap L R) (left : L) (right : R) :
    BiMap L R × Option (L × R) :=
  match findKey s.left_to_right left with
  | some old_right =>
      if old_right = right then (s, none)
      else (leftCollisionResult s left right old_right, some (left, old_right))
  | none => (freshInsertResult s left right, none)

/-- `BiMap::insert` (lines 27-53 of lib.rs).  `none` models the panic of
the internal `unwrap` (the right-collision branch finds `old_left` in the
reverse index but the forward index has no entry for it); `some (s, e)`
models a normal return with new state `s` and evicted pair `e`. -/
def insert (s : BiMap L R) (left : L) (right : R) :
    Option (BiMap L R × Option (L × R)) :=
  match findKey s.right_to_left right with
  | some old_left =>
      if old_left = left then some (insertLeftPhase s left right)
      else
        match findKey s.left_to_right old_left with
        | some old_right =>
            some (rightCollisionResult s left right old_left,
                  some (old_left, old_right))
        | none => none
  | none => some (insertLeftPhase s left right)

/-- `BiMap::get_left` (lines 56-58 of lib.rs). -/
def get_left (s : BiMap L R) (left : L) : Option R :=
  findKey s.left_to_right left

/-- `BiMap::get_right` (lines 61-63 of lib.rs). -/
def get_right (s : BiMap L R) (right : R) : Option L :=
  findKey s.right_to_left right

/-- `BiMap::remove_left` (lines 66-70 of lib.rs).  The first `?` fires
with the store untouched; the second `?` fires after the forward entry has
already been removed, and the returned left value comes from the reverse
index. -/
def remove_left (s : BiMap L R) (left : L) : BiMap L R × Option (L × R) :=
  match findKey s.left_to_right left with
  | none => (s, none)
  | some right =>
      match findKey s.right_to_left right with
      | none => (⟨eraseKey s.left_to_right left, s.right_to_left⟩, none)
      | some l2 =>
          (⟨eraseKey s.left_to_right left, eraseKey s.right_to_left right⟩,
           some (l2, right))

/-- `BiMap::remove_right` (lines 73-77 of lib.rs).  Mirror image of
`remove_left`: the returned right value comes from the forward index. -/
def remove_right (s : BiMap L R) (right : R) : BiMap L R × Option (L × R) :=
  match findKey s.right_to_left right with
  | none => (s, none)
  | some left =>
      match findKey s.left_to_right left with
      | none => (⟨s.left_to_right, eraseKey s.right_to_left right⟩, none)
      | some r2 =>
          (⟨eraseKey s.left_to_right left, eraseKey s.right_to_left right⟩,
           some (left, r2))

/-- `BiMap::contains_left` (lines 80-82 of lib.rs). -/
def contains_left (s : BiMap L R) (left : L) : Bool :=
  (findKey s.left_to_right left).isSome

/-- `BiMap::contains_right` (lines 85-87 of lib.rs). -/
def contains_right (s : BiMap L R) (right : R) : Bool :=
  (findKey s.right_to_left right).isSome

/-- `BiMap::len` (lines 90-92 of lib.rs): the forward index's key count. -/
def len (s : BiMap L R) : Nat :=
  s.left_to_right.length

/-- `BiMap::clear` (lines 100-103 of lib.rs): empties both indexes. -/
def clear (_s : BiMap L R) : BiMap L R := ⟨[], []⟩

end BiMap

/-- The states reachable from the empty store by the mutating public
operations.  An insert that panics produces no successor state, so the
insert step requires a normal return. -/
inductive Reachable {L R : Type} [DecidableEq L] [DecidableEq R] :
    BiMap L R → Prop where
  | empty : Reachable BiMap.new
  | insert_step {s t : BiMap L R} {l : L} {r : R} {e : Option (L × R)}
      (hs : Reachable s) (h : BiMap.insert s l r = some (t, e)) : Reachable t
  | remove_left_step {s : BiMap L R} (l : L) (hs : Reachable s) :
      Reachable (BiMap.remove_left s l).1
  | remove_right_step {s : BiMap L R} (r : R) (hs : Reachable s) :
      Reachable (BiMap.remove_right s r).1
  | clear_step {s : BiMap L R} (hs : Reachable s) :
      Reachable (BiMap.clear s)

/-- The invariant that actually holds on all reachable states: both
indexes have pairwise-distinct keys, and every forward entry is backed by
the matching reverse entry (one direction of the spec's invariant C1). -/
def WF {L R : Type} [DecidableEq L] [DecidableEq R] (s : BiMap L R) : Prop :=
  NodupKeys s.left_to_right ∧ NodupKeys s.right_to_left ∧
    ∀ l r, findKey s.left_to_right l = some r →
      findKey s.right_to_left r = some l

/-- A pair encoded by either index of the store (the spec's pair set is
what the two mappings "together encode"). -/
def Stored {L R : Type} [DecidableEq L] [DecidableEq R]
    (s : BiMap L R) (l : L) (r : R) : Prop :=
  findKey s.left_to_right l = some r ∨ findKey s.right_to_left r = some l

/-- The invariants claimed by the spec for every reachable state: U1 (no
left value in more than one encoded pair), U2 (no right value in more than
one encoded pair), C1 (the forward/reverse biconditional) and equal key
counts. -/
def SpecInvariants {L R : Type} [DecidableEq L] [DecidableEq R]
    (s : BiMap L R) : Prop :=
  (∀ l r r', Stored s l r → Stored s l r' → r = r') ∧
  (∀ l l' r, Stored s l r → Stored s l' r → l = l') ∧
  (∀ l r, findKey s.left_to_right l = some r ↔
    findKey s.right_to_left r = some l) ∧
  s.left_to_right.length = s.right_to_left.length

/-- The right value used as "a" in the spec's concrete scenario. -/
def sa : String := "a"

/-- The right value used as "b" in the spec's concrete scenario. -/
def sb : String := "b"

/-- The empty store over integer lefts and string rights. -/
def ex0 : BiMap Int String := BiMap.new

/-- The store after insert(1, "a"). -/
def ex1 : BiMap Int String := ⟨[(1, sa)], [(sa, 1)]⟩

/-- The store after insert(1, "a"); insert(2, "b"). -/
def ex2 : BiMap Int String := ⟨[(2, sb), (1, sa)], [(sb, 2), (sa, 1)]⟩

/-- The store after insert(1, "a"); insert(2, "b"); insert(1, "b"): the
forward entry for 1 was overwritten by the right-collision branch, but the
reverse entry ("a", 1) was never removed. -/
def ex3 : BiMap Int String := ⟨[(1, sb)], [(sb, 1), (sa, 1)]⟩

/-- The store after insert(1, "a"); insert(2, "b"); insert(1, "b");
remove_left(1): the forward index is empty while the stale reverse entry
("a", 1) survives. -/
def ex4 : BiMap Int String := ⟨[], [(sa, 1)]⟩

/-- The store produced by insert(2, "a") on `ex3`. -/
def ex5 : BiMap Int String := ⟨[(2, sa)], [(sa, 2), (sb, 1)]⟩

/-- A store state that is not reachable: the forward index holds (1, "a")
with no backing reverse entry. -/
def exBad : BiMap Int String := ⟨[(1, sa)], []⟩

section AssocLemmas

variable {α β : Type} [DecidableEq α]

theorem findKey_eraseKey_ne {m : List (α × β)} {a c : α} (h : c ≠ a) :
    findKey (eraseKey m a) c = findKey m c := by
  induction m with
  | nil => rfl
  | cons p rest ih =>
    obtain ⟨k, v⟩ := p
    simp only [eraseKey]
    by_cases hk : k = a
    · rw [if_pos hk]
      simp only [findKey, if_neg (fun hh : k = c => h (hh.symm.trans hk))]
    · simp only [if_neg hk, findKey]
      by_cases hc : k = c
      · simp [hc]
      · simp [hc, ih]

theorem mem_keys_of_findKey_some {m : List (α × β)} {a : α} {b : β}
    (h : findKey m a = some b) : a ∈ m.map Prod.fst := by
  induction m with
  | nil => simp [findKey] at h
  | cons p rest ih =>
    obtain ⟨k, v⟩ := p
    simp only [findKey] at h
    by_cases hk : k = a
    · simp [hk]
    · simp only [if_neg hk] at h
      simp [ih h]

theorem findKey_eq_none {m : List (α × β)} {a : α}
    (h : a ∉ m.map Prod.fst) : findKey m a = none := by
  induction m with
  | nil => rfl
  | cons p rest ih =>
    obtain ⟨k, v⟩ := p
    simp only [List.map_cons, List.mem_cons, not_or] at h
    simp only [findKey, if_neg (fun hh : k = a => h.1 hh.symm)]
    exact ih h.2

theorem findKey_ne_none_of_mem_keys {m : List (α × β)} {a : α}
    (h : a ∈ m.map Prod.fst) : findKey m a ≠ none := by
  induction m with
  | nil => simp at h
  | cons p rest ih =>
    obtain ⟨k, v⟩ := p
    simp only [List.map_cons, List.mem_cons] at h
    by_cases hk : k = a
    · simp [findKey, hk]
    · rcases h with h | h
      · exact absurd h.symm hk
      · simp only [findKey, if_neg hk]
        exact ih h

theorem mem_keys_of_mem_keys_eraseKey {m : List (α × β)} {a c : α}
    (h : c ∈ (eraseKey m a).map Prod.fst) : c ∈ m.map Prod.fst := by
  induction m with
  | nil => simp [eraseKey] at h
  | cons p rest ih =>
    obtain ⟨k, v⟩ := p
    simp only [eraseKey] at h
    by_cases hk : k = a
    · simp only [if_pos hk] at h
      simp [h]
    · simp only [if_neg hk, List.map_cons, List.mem_cons] at h
      rcases h with h | h
      · simp [h]
      · simp [ih h]

theorem nodupKeys_eraseKey {m : List (α × β)} (a : α) (h : NodupKeys m) :
    NodupKeys (eraseKey m a) := by
  induction m with
  | nil => simpa [eraseKey] using h
  | cons p rest ih =>
    obtain ⟨k, v⟩ := p
    simp only [NodupKeys, List.map_cons, List.nodup_cons] at h
    simp only [eraseKey]
    by_cases hk : k = a
    · simp only [if_pos hk]
      exact h.2
    · simp only [if_neg hk, NodupKeys, List.map_cons, List.nodup_cons]
      exact ⟨fun hmem => h.1 (mem_keys_of_mem_keys_eraseKey hmem), ih h.2⟩

theorem findKey_eraseKey_self {m : List (α × β)} (a : α) (h : NodupKeys m) :
    findKey (eraseKey m a) a = none := by
  induction m with
  | nil => rfl
  | cons p rest ih =>
    obtain ⟨k, v⟩ := p
    simp only [NodupKeys, List.map_cons, List.nodup_cons] at h
    simp only [eraseKey]
    by_cases hk : k = a
    · subst hk
      simp only [if_pos rfl]
      exact findKey_eq_none h.1
    · simp only [if_neg hk, findKey, if_neg hk]
      exact ih h.2

theorem nodupKeys_insertKey {m : List (α × β)} (a : α) (b : β)
    (h : NodupKeys m) : NodupKeys (insertKey m a b) := by
  simp only [insertKey, NodupKeys, List.map_cons, List.nodup_cons]
  refine ⟨fun hmem => ?_, nodupKeys_eraseKey a h⟩
  exact findKey_ne_none_of_mem_keys hmem (findKey_eraseKey_self a h)

theorem findKey_insertKey_self (m : List (α × β)) (a : α) (b : β) :
    findKey (insertKey m a b) a = some b := by
  simp [insertKey, findKey]

theorem findKey_insertKey_ne (m : List (α × β)) {a c : α} (b : β)
    (h : c ≠ a) : findKey (insertKey m a b) c = findKey m c := by
  simp only [insertKey, findKey, if_neg (fun hh : a = c => h hh.symm)]
  exact findKey_eraseKey_ne h

theorem length_eraseKey_add_one {m : List (α × β)} {a : α} {b : β}
    (h : findKey m a = some b) : (eraseKey m a).length + 1 = m.length := by
  induction m with
  | nil => simp [findKey] at h
  | cons p rest ih =>
    obtain ⟨k, v⟩ := p
    simp only [findKey] at h
    simp only [eraseKey]
    by_cases hk : k = a
    · simp [hk]
    · simp only [if_neg hk] at h
      have := ih h
      simp only [if_neg hk, List.length_cons]
      omega

theorem eraseKey_eq_self {m : List (α × β)} {a : α}
    (h : findKey m a = none) : eraseKey m a = m := by
  induction m with
  | nil => rfl
  | cons p rest ih =>
    obtain ⟨k, v⟩ := p
    simp only [findKey] at h
    by_cases hk : k = a
    · simp [hk] at h
    · simp only [if_neg hk] at h
      simp [eraseKey, if_neg hk, ih h]

theorem findKey_of_mem {m : List (α × β)} {a : α} {b : β}
    (hnd : NodupKeys m) (hm : (a, b) ∈ m) : findKey m a = some b := by
  induction m with
  | nil => simp at hm
  | cons p rest ih =>
    obtain ⟨k, v⟩ := p
    simp only [NodupKeys, List.map_cons, List.nodup_cons] at hnd
    simp only [List.mem_cons] at hm
    rcases hm with hm | hm
    · injection hm with h1 h2
      subst h1
      subst h2
      simp [findKey]
    · by_cases hk : k = a
      · exfalso
        apply hnd.1
        subst hk
        exact List.mem_map_of_mem Prod.fst hm
      · simp only [findKey, if_neg hk]
        exact ih hnd.2 hm

theorem mem_of_findKey_some {m : List (α × β)} {a : α} {b : β}
    (h : findKey m a = some b) : (a, b) ∈ m := by
  induction m with
  | nil => simp [findKey] at h
  | cons p rest ih =>
    obtain ⟨k, v⟩ := p
    simp only [findKey] at h
    by_cases hk : k = a
    · rw [if_pos hk] at h
      injection h with h
      subst h
      simp [hk]
    · simp only [if_neg hk] at h
      simp [ih h]

end AssocLemmas

section BranchEquations

variable {L R : Type} [DecidableEq L] [DecidableEq R]

theorem insertLeftPhase_noop {s : BiMap L R} {left : L} {right : R}
    (hfwd : findKey s.left_to_right left = some right) :
    BiMap.insertLeftPhase s left right = (s, none) := by
  simp [BiMap.insertLeftPhase, hfwd]

theorem insertLeftPhase_leftCollision {s : BiMap L R} {left : L}
    {right old_right : R}
    (hfwd : findKey s.left_to_right left = some old_right)
    (hne : old_right ≠ right) :
    BiMap.insertLeftPhase s left right =
      (BiMap.leftCollisionResult s left right old_right,
       some (left, old_right)) := by
  simp only [BiMap.insertLeftPhase, hfwd, if_neg hne]

theorem insertLeftPhase_fresh {s : BiMap L R} {left : L} {right : R}
    (hfwd : findKey s.left_to_right left = none) :
    BiMap.insertLeftPhase s left right =
      (BiMap.freshInsertResult s left right, none) := by
  simp only [BiMap.insertLeftPhase, hfwd]

theorem insert_of_rev_none {s : BiMap L R} {left : L} {right : R}
    (hrev : findKey s.right_to_left right = none) :
    BiMap.insert s left right = some (BiMap.insertLeftPhase s left right) := by
  simp only [BiMap.insert, hrev]

theorem insert_of_rev_self {s : BiMap L R} {left : L} {right : R}
    (hrev : findKey s.right_to_left right = some left) :
    BiMap.insert s left right = some (BiMap.insertLeftPhase s left right) := by
  simp [BiMap.insert, hrev]

theorem insert_rightCollision {s : BiMap L R} {left old_left : L}
    {right old_right : R}
    (hrev : findKey s.right_to_left right = some old_left)
    (hne : old_left ≠ left)
    (hfwd : findKey s.left_to_right old_left = some old_right) :
    BiMap.insert s left right =
      some (BiMap.rightCollisionResult s left right old_left,
            some (old_left, old_right)) := by
  simp only [BiMap.insert, hrev, if_neg hne, hfwd]

theorem insert_unwrap_none {s : BiMap L R} {left old_left : L} {right : R}
    (hrev : findKey s.right_to_left right = some old_left)
    (hne : old_left ≠ left)
    (hfwd : findKey s.left_to_right old_left = none) :
    BiMap.insert s left right = none := by
  simp only [BiMap.insert, hrev, if_neg hne, hfwd]

theorem remove_left_absent {s : BiMap L R} {left : L}
    (hfwd : findKey s.left_to_right left = none) :
    BiMap.remove_left s left = (s, none) := by
  simp only [BiMap.remove_left, hfwd]

theorem remove_left_dangling {s : BiMap L R} {left : L} {right : R}
    (hfwd : findKey s.left_to_right left = some right)
    (hrev : findKey s.right_to_left right = none) :
    BiMap.remove_left s left =
      (⟨eraseKey s.left_to_right left, s.right_to_left⟩, none) := by
  simp only [BiMap.remove_left, hfwd, hrev]

theorem remove_left_found {s : BiMap L R} {left l2 : L} {right : R}
    (hfwd : findKey s.left_to_right left = some right)
    (hrev : findKey s.right_to_left right = some l2) :
    BiMap.remove_left s left =
      (⟨eraseKey s.left_to_right left, eraseKey s.right_to_left right⟩,
       some (l2, right)) := by
  simp only [BiMap.remove_left, hfwd, hrev]

theorem remove_right_absent {s : BiMap L R} {right : R}
    (hrev : findKey s.right_to_left right = none) :
    BiMap.remove_right s right = (s, none) := by
  simp only [BiMap.remove_right, hrev]

theorem remove_right_dangling {s : BiMap L R} {left : L} {right : R}
    (hrev : findKey s.right_to_left right = some left)
    (hfwd : findKey s.left_to_right left = none) :
    BiMap.remove_right s right =
      (⟨s.left_to_right, eraseKey s.right_to_left right⟩, none) := by
  simp only [BiMap.remove_right, hrev, hfwd]

theorem remove_right_found {s : BiMap L R} {left : L} {right r2 : R}
    (hrev : findKey s.right_to_left right = some left)
    (hfwd : findKey s.left_to_right left = some r2) :
    BiMap.remove_right s right =
      (⟨eraseKey s.left_to_right left, eraseKey s.right_to_left right⟩,
       some (left, r2)) := by
  simp only [BiMap.remove_right, hrev, hfwd]

end BranchEquations

section WFLemmas

variable {L R : Type} [DecidableEq L] [DecidableEq R]

theorem wf_new : WF (BiMap.new : BiMap L R) := by
  refine ⟨by simp [NodupKeys, BiMap.new], by simp [NodupKeys, BiMap.new], ?_⟩
  intro l r h
  simp [BiMap.new, findKey] at h

theorem wf_freshInsertResult {s : BiMap L R} {l : L} {r : R} (hwf : WF s)
    (hrev : findKey s.right_to_left r = none ∨
      findKey s.right_to_left r = some l) :
    WF (BiMap.freshInsertResult s l r) := by
  obtain ⟨hnf, hnr, hc⟩ := hwf
  refine ⟨nodupKeys_insertKey _ _ hnf, nodupKeys_insertKey _ _ hnr, ?_⟩
  intro l' r' h'
  simp only [BiMap.freshInsertResult] at h' ⊢
  by_cases hl : l' = l
  · subst hl
    rw [findKey_insertKey_self] at h'
    injection h' with h'
    subst h'
    exact findKey_insertKey_self _ _ _
  · rw [findKey_insertKey_ne _ _ hl] at h'
    have hback := hc _ _ h'
    by_cases hr : r' = r
    · subst hr
      rcases hrev with hrev | hrev
      · simp [hrev] at hback
      · rw [hback] at hrev
        injection hrev with hrev
        exact absurd hrev hl
    · rw [findKey_insertKey_ne _ _ hr]
      exact hback

theorem wf_leftCollisionResult {s : BiMap L R} {l : L} {r old_right : R}
    (hwf : WF s)
    (hrev : findKey s.right_to_left r = none ∨
      findKey s.right_to_left r = some l)
    (hfwd : findKey s.left_to_right l = some old_right) :
    WF (BiMap.leftCollisionResult s l r old_right) := by
  obtain ⟨hnf, hnr, hc⟩ := hwf
  refine ⟨nodupKeys_insertKey _ _ hnf,
    nodupKeys_insertKey _ _ (nodupKeys_eraseKey _ hnr), ?_⟩
  intro l' r' h'
  simp only [BiMap.leftCollisionResult] at h' ⊢
  by_cases hl : l' = l
  · subst hl
    rw [findKey_insertKey_self] at h'
    injection h' with h'
    subst h'
    exact findKey_insertKey_self _ _ _
  · rw [findKey_insertKey_ne _ _ hl] at h'
    have hback := hc _ _ h'
    by_cases hr : r' = r
    · subst hr
      rcases hrev with hrev | hrev
      · simp [hrev] at hback
      · rw [hback] at hrev
        injection hrev with hrev
        exact absurd hrev hl
    · rw [findKey_insertKey_ne _ _ hr]
      by_cases hro : r' = old_right
      · subst hro
        have hl2 := hc _ _ hfwd
        rw [hback] at hl2
        injection hl2 with hl2
        exact absurd hl2 hl
      · rw [findKey_eraseKey_ne hro]
        exact hback

theorem wf_rightCollisionResult {s : BiMap L R} {l old_left : L}
    {r old_right : R} (hwf : WF s)
    (hrev : findKey s.right_to_left r = some old_left) (hne : old_left ≠ l)
    (hfwd : findKey s.left_to_right old_left = some old_right) :
    WF (BiMap.rightCollisionResult s l r old_left) := by
  obtain ⟨hnf, hnr, hc⟩ := hwf
  refine ⟨nodupKeys_insertKey _ _ (nodupKeys_eraseKey _ hnf),
    nodupKeys_insertKey _ _ (nodupKeys_eraseKey _ hnr), ?_⟩
  intro l' r' h'
  simp only [BiMap.rightCollisionResult] at h' ⊢
  by_cases hl : l' = l
  · subst hl
    rw [findKey_insertKey_self] at h'
    injection h' with h'
    subst h'
    exact findKey_insertKey_self _ _ _
  · rw [findKey_insertKey_ne _ _ hl] at h'
    by_cases hlo : l' = old_left
    · subst hlo
      rw [findKey_eraseKey_self _ hnf] at h'
      cases h'
    · rw [findKey_eraseKey_ne hlo] at h'
      have hback := hc _ _ h'
      by_cases hr : r' = r
      · subst hr
        rw [hback] at hrev
        injection hrev with hrev
        exact absurd hrev hlo
      · rw [findKey_insertKey_ne _ _ hr, findKey_eraseKey_ne hr]
        exact hback

theorem wf_insertLeftPhase {s : BiMap L R} {l : L} {r : R} (hwf : WF s)
    (hrev : findKey s.right_to_left r = none ∨
      findKey s.right_to_left r = some l) :
    WF (BiMap.insertLeftPhase s l r).1 := by
  rcases hfwd : findKey s.left_to_right l with _ | old_right
  · rw [insertLeftPhase_fresh hfwd]
    exact wf_freshInsertResult hwf hrev
  · by_cases hor : old_right = r
    · subst hor
      rw [insertLeftPhase_noop hfwd]
      exact hwf
    · rw [insertLeftPhase_leftCollision hfwd hor]
      exact wf_leftCollisionResult hwf hrev hfwd

theorem wf_insert {s t : BiMap L R} {l : L} {r : R} {e : Option (L × R)}
    (hwf : WF s) (h : BiMap.insert s l r = some (t, e)) : WF t := by
  rcases hrev : findKey s.right_to_left r with _ | old_left
  · rw [insert_of_rev_none hrev] at h
    injection h with h
    rw [show t = (BiMap.insertLeftPhase s l r).1 from congrArg Prod.fst h.symm]
    exact wf_insertLeftPhase hwf (Or.inl hrev)
  · by_cases hol : old_left = l
    · subst hol
      rw [insert_of_rev_self hrev] at h
      injection h with h
      rw [show t = (BiMap.insertLeftPhase s old_left r).1 from
        congrArg Prod.fst h.symm]
      exact wf_insertLeftPhase hwf (Or.inr hrev)
    · rcases hfwd : findKey s.left_to_right old_left with _ | old_right
      · rw [insert_unwrap_none hrev hol hfwd] at h
        cases h
      · rw [insert_rightCollision hrev hol hfwd] at h
        injection h with h
        rw [show t = BiMap.rightCollisionResult s l r old_left from
          congrArg Prod.fst h.symm]
        exact wf_rightCollisionResult hwf hrev hol hfwd

theorem wf_removeBoth {s : BiMap L R} {l : L} {r0 : R} (hwf : WF s)
    (hfwd : findKey s.left_to_right l = some r0) :
    WF (⟨eraseKey s.left_to_right l, eraseKey s.right_to_left r0⟩ :
      BiMap L R) := by
  obtain ⟨hnf, hnr, hc⟩ := hwf
  refine ⟨nodupKeys_eraseKey _ hnf, nodupKeys_eraseKey _ hnr, ?_⟩
  intro l' r' h'
  dsimp only at h' ⊢
  by_cases hl : l' = l
  · subst hl
    rw [findKey_eraseKey_self _ hnf] at h'
    cases h'
  · rw [findKey_eraseKey_ne hl] at h'
    have hb := hc _ _ h'
    by_cases hr : r' = r0
    · subst hr
      have hbl := hc _ _ hfwd
      rw [hb] at hbl
      injection hbl with hbl
      exact absurd hbl hl
    · rw [findKey_eraseKey_ne hr]
      exact hb

theorem wf_remove_left {s : BiMap L R} (l : L) (hwf : WF s) :
    WF (BiMap.remove_left s l).1 := by
  rcases hfwd : findKey s.left_to_right l with _ | r0
  · rw [remove_left_absent hfwd]
    exact hwf
  · have hback := hwf.2.2 _ _ hfwd
    rw [remove_left_found hfwd hback]
    exact wf_removeBoth hwf hfwd

theorem wf_remove_right {s : BiMap L R} (r : R) (hwf : WF s) :
    WF (BiMap.remove_right s r).1 := by
  rcases hrev : findKey s.right_to_left r with _ | l0
  · rw [remove_right_absent hrev]
    exact hwf
  · rcases hfwd : findKey s.left_to_right l0 with _ | r2
    · rw [remove_right_dangling hrev hfwd]
      obtain ⟨hnf, hnr, hc⟩ := hwf
      refine ⟨hnf, nodupKeys_eraseKey _ hnr, ?_⟩
      intro l' r' h'
      dsimp only at h' ⊢
      have hb := hc _ _ h'
      by_cases hr : r' = r
      · subst hr
        rw [hb] at hrev
        injection hrev with hrev
        subst hrev
        rw [hfwd] at h'
        cases h'
      · rw [findKey_eraseKey_ne hr]
        exact hb
    · rw [remove_right_found hrev hfwd]
      have h2 : WF (⟨eraseKey s.left_to_right l0,
          eraseKey s.right_to_left r2⟩ : BiMap L R) := wf_removeBoth hwf hfwd
      obtain ⟨hnf, hnr, hc⟩ := hwf
      refine ⟨nodupKeys_eraseKey _ hnf, nodupKeys_eraseKey _ hnr, ?_⟩
      intro l' r' h'
      dsimp only at h' ⊢
      by_cases hl : l' = l0
      · subst hl
        rw [findKey_eraseKey_self _ hnf] at h'
        cases h'
      · rw [findKey_eraseKey_ne hl] at h'
        have hb := hc _ _ h'
        by_cases hr : r' = r
        · subst hr
          rw [hb] at hrev
          injection hrev with hrev
          exact absurd hrev hl
        · rw [findKey_eraseKey_ne hr]
          exact hb

theorem wf_clear (s : BiMap L R) : WF (BiMap.clear s) := by
  refine ⟨by simp [NodupKeys, BiMap.clear], by simp [NodupKeys, BiMap.clear],
    ?_⟩
  intro l r h
  simp [BiMap.clear, findKey] at h

theorem reachable_wf {s : BiMap L R} (h : Reachable s) : WF s := by
  induction h with
  | empty => exact wf_new
  | insert_step hs hins ih => exact wf_insert ih hins
  | remove_left_step l hs ih => exact wf_remove_left l ih
  | remove_right_step r hs ih => exact wf_remove_right r ih
  | clear_step hs ih => exact wf_clear _

theorem length_le_of_wf {L R : Type} [DecidableEq L] [DecidableEq R]
    {s : BiMap L R} (hwf : WF s) :
    s.left_to_right.length ≤ s.right_to_left.length := by
  obtain ⟨hnf, hnr, hc⟩ := hwf
  have hent : s.left_to_right.Nodup := List.Nodup.of_map _ hnf
  have hnd : (s.left_to_right.map Prod.snd).Nodup := by
    refine List.Nodup.map_on ?_ hent
    intro x hx y hy hxy
    rcases x with ⟨a, b⟩
    rcases y with ⟨a2, b2⟩
    dsimp at hxy
    subst hxy
    have h1 := hc _ _ (findKey_of_mem hnf hx)
    have h2 := hc _ _ (findKey_of_mem hnf hy)
    rw [h1] at h2
    injection h2 with h2
    subst h2
    rfl
  have hsub : s.left_to_right.map Prod.snd ⊆ s.right_to_left.map Prod.fst := by
    intro x hx
    rcases List.mem_map.mp hx with ⟨⟨a, b⟩, hp, rfl⟩
    exact mem_keys_of_findKey_some (hc _ _ (findKey_of_mem hnf hp))
  have hle := (List.subperm_of_subset hnd hsub).length_le
  simpa using hle

end WFLemmas

section Traces

theorem insert_ex0 : BiMap.insert ex0 1 sa = some (ex1, none) := by decide

theorem insert_ex1 : BiMap.insert ex1 2 sb = some (ex2, none) := by decide

theorem insert_ex2 : BiMap.insert ex2 1 sb = some (ex3, some (2, sb)) := by
  decide

theorem remove_ex3 : BiMap.remove_left ex3 1 = (ex4, some (1, sb)) := by
  decide

theorem reach_ex1 : Reachable ex1 :=
  Reachable.insert_step Reachable.empty insert_ex0

theorem reach_ex2 : Reachable ex2 :=
  Reachable.insert_step reach_ex1 insert_ex1

theorem reach_ex3 : Reachable ex3 :=
  Reachable.insert_step reach_ex2 insert_ex2

theorem reach_ex4 : Reachable ex4 := by
  have h := Reachable.remove_left_step 1 reach_ex3
  rw [remove_ex3] at h
  exact h

end Traces

section Observability

variable {L R : Type} [DecidableEq L] [DecidableEq R]

theorem leftPhase_observable {s : BiMap L R} {l : L} {r : R} (hwf : WF s)
    (hrev : findKey s.right_to_left r = none ∨
      findKey s.right_to_left r = some l) :
    findKey (BiMap.insertLeftPhase s l r).1.left_to_right l = some r ∧
    findKey (BiMap.insertLeftPhase s l r).1.right_to_left r = some l := by
  rcases hfwd : findKey s.left_to_right l with _ | orr
  · rw [insertLeftPhase_fresh hfwd]
    exact ⟨findKey_insertKey_self _ _ _, findKey_insertKey_self _ _ _⟩
  · by_cases hor : orr = r
    · subst hor
      rw [insertLeftPhase_noop hfwd]
      refine ⟨hfwd, ?_⟩
      rcases hrev with hrev | hrev
      · have hb := hwf.2.2 _ _ hfwd
        rw [hrev] at hb
        cases hb
      · exact hrev
    · rw [insertLeftPhase_leftCollision hfwd hor]
      exact ⟨findKey_insertKey_self _ _ _, findKey_insertKey_self _ _ _⟩

end Observability

section Claims

/-- C1 (counterexample): the state reached by insert(1,"a"); insert(2,"b");
insert(1,"b") violates the claimed invariants — its forward index has one
key while its reverse index has two, so the cardinality clause (and with
it the biconditional C1 and uniqueness over encoded pairs) fails on a
reachable state. -/
theorem c1_spec_invariants_counterexample :
    Reachable ex3 ∧ ¬ SpecInvariants ex3 :=
  ⟨reach_ex3, fun h => absurd h.2.2.2 (by decide)⟩

/-- C1 (amended): on every reachable state, the forward-to-reverse
direction of invariant C1 holds — every forward entry is backed by the
matching reverse entry — hence no right value is the image of two distinct
forward entries, and the forward index is never larger than the reverse
index.  The full biconditional, uniqueness over reverse-encoded pairs, and
equality of the two key counts can all fail after an insert that collides
on both sides at once. -/
theorem c1_reachable_invariants {L R : Type} [DecidableEq L]
    [DecidableEq R] {s : BiMap L R} (hs : Reachable s) :
    (∀ l r, BiMap.get_left s l = some r → BiMap.get_right s r = some l) ∧
    (∀ l1 l2 r, BiMap.get_left s l1 = some r →
      BiMap.get_left s l2 = some r → l1 = l2) ∧
    BiMap.len s ≤ s.right_to_left.length := by
  have hwf := reachable_wf hs
  refine ⟨fun l r h => hwf.2.2 l r h, ?_, length_le_of_wf hwf⟩
  intro l1 l2 r h1 h2
  have hb := hwf.2.2 _ _ h1
  rw [hwf.2.2 _ _ h2] at hb
  injection hb with hb
  exact hb.symm

/-- C1 (witness): the amended invariant theorem evaluated on the reachable
one-pair store. -/
theorem c1_reachable_invariants_witness :
    BiMap.get_right ex1 sa = some 1 ∧
    BiMap.len ex1 ≤ ex1.right_to_left.length :=
  ⟨(c1_reachable_invariants reach_ex1).1 1 sa (by decide),
   (c1_reachable_invariants reach_ex1).2.2⟩

/-- C2 (counterexample): in the spec's concrete scenario the third insert
does evict (2,"b"), but lookup-by-right("a") afterwards is not "not
found": the stale reverse entry ("a",1) survives, so get_right returns
some 1. -/
theorem c2_scenario_counterexample :
    BiMap.insert ex0 1 sa = some (ex1, none) ∧
    BiMap.insert ex1 2 sb = some (ex2, none) ∧
    BiMap.insert ex2 1 sb = some (ex3, some (2, sb)) ∧
    BiMap.get_right ex3 sa ≠ none := by decide

/-- C2 (amended): the concrete scenario as the code actually runs it: the
first two inserts return no eviction with sizes 1 and 2, the third insert
evicts (2,"b"), and in the resulting state lookup-by-left(1) = "b" and
lookup-by-left(2) is not found — but lookup-by-right("a") still finds 1,
because the right-collision branch never removed the old reverse entry for
"a". -/
theorem c2_scenario_theorem :
    BiMap.insert ex0 1 sa = some (ex1, none) ∧ BiMap.len ex1 = 1 ∧
    BiMap.insert ex1 2 sb = some (ex2, none) ∧ BiMap.len ex2 = 2 ∧
    BiMap.insert ex2 1 sb = some (ex3, some (2, sb)) ∧
    BiMap.get_left ex3 1 = some sb ∧
    BiMap.get_left ex3 2 = none ∧
    BiMap.get_right ex3 sa = some 1 := by decide

/-- C3 (counterexample): on the reachable state `ex3` the reverse index
associates "a" with old_left = 1 ≠ 2, yet insert(2,"a") returns the pair
(1,"b") — the code returns (old_left, forward[old_left]), not the claimed
(old_left, right) = (1,"a"). -/
theorem c3_return_value_counterexample :
    Reachable ex3 ∧
    BiMap.get_right ex3 sa = some 1 ∧ (1 : Int) ≠ 2 ∧
    BiMap.insert ex3 2 sa = some (ex5, some (1, sb)) ∧
    ((1 : Int), sb) ≠ ((1 : Int), sa) :=
  ⟨reach_ex3, by decide, by decide, by decide, by decide⟩

/-- C3 (amended): on a reachable state, whenever the reverse map
associates `right` with some `old_left ≠ left` (and the forward map has an
entry for `old_left`, or the insert would panic), the right-collision
branch runs: forward[old_left] and reverse[right] are removed, (left,
right) is installed in both indexes, the returned pair is (old_left,
forward[old_left]) — which equals (old_left, right) only when the state is
fully consistent — every other reverse entry (in particular the one for
any old_right that left previously mapped to) is untouched, and every
other forward entry is untouched; the left-side branch runs only when no
differing owner was found. -/
theorem c3_right_collision_branch {L R : Type} [DecidableEq L]
    [DecidableEq R] {s : BiMap L R} {left old_left : L}
    {right old_right : R} (hs : Reachable s)
    (hrev : BiMap.get_right s right = some old_left)
    (hne : old_left ≠ left)
    (hfwd : BiMap.get_left s old_left = some old_right) :
    BiMap.insert s left right =
      some (BiMap.rightCollisionResult s left right old_left,
            some (old_left, old_right)) ∧
    BiMap.get_left (BiMap.rightCollisionResult s left right old_left)
      left = some right ∧
    BiMap.get_right (BiMap.rightCollisionResult s left right old_left)
      right = some left ∧
    BiMap.get_left (BiMap.rightCollisionResult s left right old_left)
      old_left = none ∧
    (∀ r', r' ≠ right →
      BiMap.get_right (BiMap.rightCollisionResult s left right old_left) r' =
        BiMap.get_right s r') ∧
    (∀ l', l' ≠ left → l' ≠ old_left →
      BiMap.get_left (BiMap.rightCollisionResult s left right old_left) l' =
        BiMap.get_left s l') := by
  have hwf := reachable_wf hs
  refine ⟨insert_rightCollision hrev hne hfwd,
    findKey_insertKey_self _ _ _, findKey_insertKey_self _ _ _, ?_, ?_, ?_⟩
  · have h1 : BiMap.get_left (BiMap.rightCollisionResult s left right
        old_left) old_left =
        findKey (eraseKey s.left_to_right old_left) old_left :=
      findKey_insertKey_ne _ _ hne
    rw [h1, findKey_eraseKey_self _ hwf.1]
  · intro r' hr'
    show findKey (insertKey (eraseKey s.right_to_left right) right left) r' =
      findKey s.right_to_left r'
    rw [findKey_insertKey_ne _ _ hr', findKey_eraseKey_ne hr']
  · intro l' hl1 hl2
    show findKey (insertKey (eraseKey s.left_to_right old_left) left right)
      l' = findKey s.left_to_right l'
    rw [findKey_insertKey_ne _ _ hl1, findKey_eraseKey_ne hl2]

/-- C3 (witness): the right-collision branch theorem evaluated on the
reachable two-pair store with insert(1,"b"). -/
theorem c3_right_collision_branch_witness :
    Reachable ex2 ∧ BiMap.get_right ex2 sb = some 2 ∧ (2 : Int) ≠ 1 ∧
    BiMap.get_left ex2 2 = some sb ∧
    BiMap.insert ex2 1 sb =
      some (BiMap.rightCollisionResult ex2 1 sb 2, some (2, sb)) ∧
    BiMap.get_left (BiMap.rightCollisionResult ex2 1 sb 2) 2 = none :=
  ⟨reach_ex2, by decide, by decide, by decide,
   (@c3_right_collision_branch Int String _ _ ex2 1 2 sb sb reach_ex2
     (by decide) (by decide) (by decide)).1,
   (@c3_right_collision_branch Int String _ _ ex2 1 2 sb sb reach_ex2
     (by decide) (by decide) (by decide)).2.2.2.1⟩

/-- C4 (counterexample): on the reachable state `ex4` the call
remove_right("a") returns "not found" (the defensive cross-lookup into the
forward index fails), yet the store is changed: the reverse entry
("a", 1) has been removed, leaving the empty store. -/
theorem c4_partial_state_counterexample :
    Reachable ex4 ∧
    (BiMap.remove_right ex4 sa).2 = none ∧
    (BiMap.remove_right ex4 sa).1 ≠ ex4 :=
  ⟨reach_ex4, by decide, by decide⟩

/-- C4 (amended): a removal that returns "not found" because the presented
value is absent from its own index leaves the store unchanged; but when
the defensive cross-lookup into the other index fails, "not found" is
returned with the presented side's entry already removed — partial state.
On reachable states the cross-lookup of remove_left never fails (every
forward entry is reverse-backed), while remove_right's can, as the
counterexample shows. -/
theorem c4_remove_not_found {L R : Type} [DecidableEq L] [DecidableEq R]
    (s : BiMap L R) (l : L) (r : R) :
    (BiMap.get_left s l = none → BiMap.remove_left s l = (s, none)) ∧
    (BiMap.get_right s r = none → BiMap.remove_right s r = (s, none)) ∧
    (∀ r0, BiMap.get_left s l = some r0 → BiMap.get_right s r0 = none →
      BiMap.remove_left s l =
        (⟨eraseKey s.left_to_right l, s.right_to_left⟩, none)) ∧
    (∀ l0, BiMap.get_right s r = some l0 → BiMap.get_left s l0 = none →
      BiMap.remove_right s r =
        (⟨s.left_to_right, eraseKey s.right_to_left r⟩, none)) ∧
    (Reachable s → ∀ r0, BiMap.get_left s l = some r0 →
      BiMap.get_right s r0 ≠ none) := by
  refine ⟨fun h => remove_left_absent h, fun h => remove_right_absent h,
    fun r0 h1 h2 => remove_left_dangling h1 h2,
    fun l0 h1 h2 => remove_right_dangling h1 h2, ?_⟩
  intro hs r0 h1 h2
  have h2' : findKey s.right_to_left r0 = none := h2
  rw [(reachable_wf hs).2.2 _ _ h1] at h2'
  cases h2'

/-- C4 (witness): the not-found cases evaluated on concrete stores: an
absent left leaves the store unchanged, and the failing cross-lookup of
remove_right("a") on `ex4` removes only the reverse entry. -/
theorem c4_remove_not_found_witness :
    BiMap.remove_left ex4 5 = (ex4, none) ∧
    BiMap.remove_right ex4 sa =
      (⟨ex4.left_to_right, eraseKey ex4.right_to_left sa⟩, none) :=
  ⟨(c4_remove_not_found ex4 5 sa).1 (by decide),
   (c4_remove_not_found ex4 5 sa).2.2.2.1 1 (by decide) (by decide)⟩

/-- C5 (counterexample): on the reachable state `ex3` the pair (1,"b") is
stored in both directions, and remove_left(1) returns (1,"b") — but
afterwards the left value 1 is not absent from both indexes: the stale
reverse entry ("a",1) still yields it, get_right("a") = some 1. -/
theorem c5_stale_left_counterexample :
    Reachable ex3 ∧
    BiMap.get_left ex3 1 = some sb ∧ BiMap.get_right ex3 sb = some 1 ∧
    BiMap.remove_left ex3 1 = (ex4, some (1, sb)) ∧
    BiMap.get_right ex4 sa = some 1 :=
  ⟨reach_ex3, by decide, by decide, by decide, by decide⟩

/-- C5 (amended): for a pair (l, r) stored in both directions of a
reachable store, remove_left(l) and remove_right(r) both return exactly
(l, r) and produce the same state, in which l is no longer a forward key,
r is no longer a reverse key, r is the image of no forward entry, and the
size has decreased by exactly 1.  The left value l, however, may still be
the image of a stale reverse entry. -/
theorem c5_remove_stored_pair {L R : Type} [DecidableEq L] [DecidableEq R]
    {s : BiMap L R} {l : L} {r : R} (hs : Reachable s)
    (hfwd : BiMap.get_left s l = some r)
    (hrev : BiMap.get_right s r = some l) :
    BiMap.remove_left s l =
      (⟨eraseKey s.left_to_right l, eraseKey s.right_to_left r⟩,
       some (l, r)) ∧
    BiMap.remove_right s r =
      (⟨eraseKey s.left_to_right l, eraseKey s.right_to_left r⟩,
       some (l, r)) ∧
    BiMap.get_left (⟨eraseKey s.left_to_right l,
      eraseKey s.right_to_left r⟩ : BiMap L R) l = none ∧
    BiMap.get_right (⟨eraseKey s.left_to_right l,
      eraseKey s.right_to_left r⟩ : BiMap L R) r = none ∧
    (∀ l', BiMap.get_left (⟨eraseKey s.left_to_right l,
      eraseKey s.right_to_left r⟩ : BiMap L R) l' ≠ some r) ∧
    BiMap.len (⟨eraseKey s.left_to_right l,
      eraseKey s.right_to_left r⟩ : BiMap L R) + 1 = BiMap.len s := by
  have hwf := reachable_wf hs
  have hfwd' : findKey s.left_to_right l = some r := hfwd
  have hrev' : findKey s.right_to_left r = some l := hrev
  refine ⟨remove_left_found hfwd' hrev', remove_right_found hrev' hfwd',
    findKey_eraseKey_self _ hwf.1, findKey_eraseKey_self _ hwf.2.1, ?_,
    length_eraseKey_add_one hfwd'⟩
  intro l' h'
  have h'' : findKey (eraseKey s.left_to_right l) l' = some r := h'
  by_cases hl : l' = l
  · subst hl
    rw [findKey_eraseKey_self _ hwf.1] at h''
    cases h''
  · rw [findKey_eraseKey_ne hl] at h''
    have hb := hwf.2.2 _ _ h''
    rw [hrev'] at hb
    injection hb with hb
    exact hl hb.symm

/-- C5 (witness): the removal theorem evaluated on the reachable one-pair
store. -/
theorem c5_remove_stored_pair_witness :
    Reachable ex1 ∧
    BiMap.remove_left ex1 1 =
      (⟨eraseKey ex1.left_to_right 1, eraseKey ex1.right_to_left sa⟩,
       some (1, sa)) ∧
    BiMap.len (⟨eraseKey ex1.left_to_right 1,
      eraseKey ex1.right_to_left sa⟩ : BiMap Int String) + 1 =
      BiMap.len ex1 :=
  ⟨reach_ex1,
   (c5_remove_stored_pair reach_ex1 (by decide) (by decide)).1,
   (c5_remove_stored_pair reach_ex1 (by decide) (by decide)).2.2.2.2.2⟩

/-- C6 (counterexample): on the reachable state `ex2` the pair (1,"a") is
stored and "b" ≠ "a", but insert(1,"b") does not return (1,"a"): the
right-side collision with (2,"b") takes priority, the returned pair is
(2,"b"), and lookup-by-right("a") afterwards still finds 1 instead of
being not found. -/
theorem c6_double_collision_counterexample :
    Reachable ex2 ∧
    BiMap.get_left ex2 1 = some sa ∧ sa ≠ sb ∧
    BiMap.insert ex2 1 sb = some (ex3, some (2, sb)) ∧
    some (((2 : Int), sb)) ≠ some (((1 : Int), sa)) ∧
    BiMap.get_right ex3 sa ≠ none :=
  ⟨reach_ex2, by decide, by decide, by decide, by decide, by decide⟩

/-- C6 (amended): the left-collision description holds provided r2 is not
currently owned by a left value other than l (otherwise the right-side
collision branch runs instead): if (l, r1) is stored on a reachable state,
r1 ≠ r2, and the reverse index maps r2 to nothing or to l itself, then
insert(l, r2) evicts and returns (l, r1), and afterwards lookup-by-left(l)
= r2, lookup-by-right(r1) is not found, and lookup-by-right(r2) = l. -/
theorem c6_left_collision_insert {L R : Type} [DecidableEq L]
    [DecidableEq R] {s : BiMap L R} {l : L} {r1 r2 : R}
    (hs : Reachable s) (hfwd : BiMap.get_left s l = some r1)
    (hne : r1 ≠ r2)
    (hr2 : BiMap.get_right s r2 = none ∨ BiMap.get_right s r2 = some l) :
    BiMap.insert s l r2 =
      some (BiMap.leftCollisionResult s l r2 r1, some (l, r1)) ∧
    BiMap.get_left (BiMap.leftCollisionResult s l r2 r1) l = some r2 ∧
    BiMap.get_right (BiMap.leftCollisionResult s l r2 r1) r1 = none ∧
    BiMap.get_right (BiMap.leftCollisionResult s l r2 r1) r2 = some l := by
  have hwf := reachable_wf hs
  have hfwd' : findKey s.left_to_right l = some r1 := hfwd
  have hphase : BiMap.insert s l r2 =
      some (BiMap.insertLeftPhase s l r2) := by
    rcases hr2 with h | h
    · exact insert_of_rev_none h
    · exact insert_of_rev_self h
  refine ⟨by rw [hphase, insertLeftPhase_leftCollision hfwd' hne],
    findKey_insertKey_self _ _ _, ?_, findKey_insertKey_self _ _ _⟩
  have h1 : BiMap.get_right (BiMap.leftCollisionResult s l r2 r1) r1 =
      findKey (eraseKey s.right_to_left r1) r1 :=
    findKey_insertKey_ne _ _ hne
  rw [h1, findKey_eraseKey_self _ hwf.2.1]

/-- C6 (witness): the left-collision theorem evaluated on the reachable
one-pair store with insert(1,"b"). -/
theorem c6_left_collision_insert_witness :
    Reachable ex1 ∧ BiMap.get_left ex1 1 = some sa ∧ sa ≠ sb ∧
    BiMap.get_right ex1 sb = none ∧
    BiMap.insert ex1 1 sb =
      some (BiMap.leftCollisionResult ex1 1 sb sa, some (1, sa)) ∧
    BiMap.get_right (BiMap.leftCollisionResult ex1 1 sb sa) sa = none :=
  ⟨reach_ex1, by decide, by decide, by decide,
   (c6_left_collision_insert reach_ex1 (by decide) (by decide)
     (Or.inl (by decide))).1,
   (c6_left_collision_insert reach_ex1 (by decide) (by decide)
     (Or.inl (by decide))).2.2.1⟩

/-- C7 (confirmed): inserting a pair that is already stored unchanged in
both directions of a reachable store mutates nothing — the very same
state is returned — and reports no eviction. -/
theorem c7_insert_noop {L R : Type} [DecidableEq L] [DecidableEq R]
    {s : BiMap L R} {l : L} {r : R} (_hs : Reachable s)
    (hfwd : BiMap.get_left s l = some r)
    (hrev : BiMap.get_right s r = some l) :
    BiMap.insert s l r = some (s, none) := by
  have hfwd' : findKey s.left_to_right l = some r := hfwd
  have hrev' : findKey s.right_to_left r = some l := hrev
  rw [insert_of_rev_self hrev', insertLeftPhase_noop hfwd']

/-- C7 (witness): the no-op theorem evaluated on the reachable one-pair
store. -/
theorem c7_insert_noop_witness :
    Reachable ex1 ∧ BiMap.get_left ex1 1 = some sa ∧
    BiMap.get_right ex1 sa = some 1 ∧
    BiMap.insert ex1 1 sa = some (ex1, none) :=
  ⟨reach_ex1, by decide, by decide,
   c7_insert_noop reach_ex1 (by decide) (by decide)⟩

/-- C8 (refuting theorem): insert can hit the failure branch of its
internal unwrap on a reachable state: `ex4` is reached by insert(1,"a");
insert(2,"b"); insert(1,"b"); remove_left(1), its reverse index still maps
"a" to 1 while its forward index is empty, and insert(2,"a") then finds
old_left = 1 ≠ 2 but no forward entry for 1 — the unwrap fails, i.e. the
call panics. -/
theorem c8_insert_unwrap_failure :
    Reachable ex4 ∧ BiMap.insert ex4 2 sa = none :=
  ⟨reach_ex4, by decide⟩

/-- C9 (counterexample): on a store state whose forward entry (1,"a") has
no backing reverse entry — allowed by the claim, which quantifies over
unreachable states too — insert(1,"a") takes the no-op branch and returns
normally, yet get_right("a") afterwards is none, not some 1. -/
theorem c9_unbacked_noop_counterexample :
    BiMap.insert exBad 1 sa = some (exBad, none) ∧
    BiMap.get_right exBad sa = none := by decide

/-- C9 (amended): restricted to reachable states the claim holds: if
insert(l, r) returns normally, the inserted pair is observable from both
sides — get_left(l) = some r and get_right(r) = some l — in all branches
of insert. -/
theorem c9_insert_observable {L R : Type} [DecidableEq L] [DecidableEq R]
    {s t : BiMap L R} {l : L} {r : R} {e : Option (L × R)}
    (hs : Reachable s) (h : BiMap.insert s l r = some (t, e)) :
    BiMap.get_left t l = some r ∧ BiMap.get_right t r = some l := by
  have hwf := reachable_wf hs
  rcases hrev : findKey s.right_to_left r with _ | ol
  · rw [insert_of_rev_none hrev] at h
    injection h with h
    have ht : t = (BiMap.insertLeftPhase s l r).1 := congrArg Prod.fst h.symm
    rw [ht]
    exact leftPhase_observable hwf (Or.inl hrev)
  · by_cases hol : ol = l
    · subst hol
      rw [insert_of_rev_self hrev] at h
      injection h with h
      have ht : t = (BiMap.insertLeftPhase s ol r).1 :=
        congrArg Prod.fst h.symm
      rw [ht]
      exact leftPhase_observable hwf (Or.inr hrev)
    · rcases hfwd : findKey s.left_to_right ol with _ | orr
      · rw [insert_unwrap_none hrev hol hfwd] at h
        cases h
      · rw [insert_rightCollision hrev hol hfwd] at h
        injection h with h
        have ht : t = BiMap.rightCollisionResult s l r ol :=
          congrArg Prod.fst h.symm
        rw [ht]
        exact ⟨findKey_insertKey_self _ _ _, findKey_insertKey_self _ _ _⟩

/-- C9 (witness): the observability theorem evaluated on the fresh insert
into the empty store. -/
theorem c9_insert_observable_witness :
    Reachable ex0 ∧ BiMap.insert ex0 1 sa = some (ex1, none) ∧
    BiMap.get_left ex1 1 = some sa ∧ BiMap.get_right ex1 sa = some 1 :=
  ⟨Reachable.empty, by decide,
   (@c9_insert_observable Int String _ _ ex0 ex1 1 sa none
     Reachable.empty (by decide)).1,
   (@c9_insert_observable Int String _ _ ex0 ex1 1 sa none
     Reachable.empty (by decide)).2⟩

/-- C10 (counterexample): on the reachable state `ex3` the call
remove_right("a") returns the pair (1,"b"), whose right component "b"
differs from the queried right value "a". -/
theorem c10_remove_right_counterexample :
    Reachable ex3 ∧
    BiMap.remove_right ex3 sa = (⟨[], [(sb, 1)]⟩, some (1, sb)) ∧
    sb ≠ sa :=
  ⟨reach_ex3, by decide, by decide⟩

/-- C10 (amended): the remove_left half of the claim holds on reachable
states: if remove_left(l) returns a pair, its left component is exactly
the queried l.  The symmetric statement for remove_right fails, as the
counterexample shows. -/
theorem c10_remove_left_returns_queried {L R : Type} [DecidableEq L]
    [DecidableEq R] {s t : BiMap L R} {l l' : L} {r : R}
    (hs : Reachable s)
    (h : BiMap.remove_left s l = (t, some (l', r))) : l' = l := by
  have hwf := reachable_wf hs
  rcases hfwd : findKey s.left_to_right l with _ | r0
  · rw [remove_left_absent hfwd] at h
    have h2 : (none : Option (L × R)) = some (l', r) := congrArg Prod.snd h
    cases h2
  · have hback := hwf.2.2 _ _ hfwd
    rw [remove_left_found hfwd hback] at h
    have h2 : some ((l, r0)) = some ((l', r)) := congrArg Prod.snd h
    injection h2 with h2
    injection h2 with h2a h2b
    exact h2a.symm

/-- C10 (witness): the remove_left theorem evaluated on the reachable
one-pair store. -/
theorem c10_remove_left_returns_queried_witness :
    Reachable ex1 ∧
    BiMap.remove_left ex1 1 = (⟨[], []⟩, some (1, sa)) ∧ (1 : Int) = 1 :=
  ⟨reach_ex1, by decide,
   @c10_remove_left_returns_queried Int String _ _ ex1 ⟨[], []⟩ 1 1 sa
     reach_ex1 (by decide)⟩

end Claims

end BiMapModel
